import Mathlib

/-!
Verification of the multi-camera point-cloud alignment core of
`4_proj2.py` (`process_four_cameras`).

The script's original logic (spec §4.4, source lines 27-91) is embedded
shallowly over exact rational arithmetic `ℚ`:

* the external Point Projector (`depth_to_points`, an external library
  collaborator) is abstracted as the per-camera list of camera-local 3-D
  points it returns, one point per pixel, with `z` the depth;
* the flattened source image is abstracted as the parallel per-camera
  list of RGB colors, one per pixel;
* `np.percentile(_, q)` (default linear interpolation) is embedded as
  `npPercentile`;
* the 4×4 homogeneous transform matrices are embedded as
  `Fin 4 → Fin 4 → ℚ`, with numpy's in-place entry assignment
  `transform[2, 3] = v` embedded as the functional update `setEntry`;
* numpy boolean-mask indexing `a[mask]` is embedded as `applyMask`.
-/

/-- A camera-local or world 3-D point, one per pixel of the depth map. -/
structure Point3 where
  x : ℚ
  y : ℚ
  z : ℚ
deriving DecidableEq, Repr

/-- An RGB color sampled from the source image (per-channel value). -/
structure Color where
  r : ℚ
  g : ℚ
  b : ℚ
deriving DecidableEq, Repr

/-- A 4×4 homogeneous transform matrix, as stored in a numpy array. -/
def Mat : Type := Fin 4 → Fin 4 → ℚ

instance : Inhabited Mat := ⟨fun _ _ => 0⟩

/-- Source line 27: `T_cam1_world = np.eye(4)` (camera 1, the reference). -/
def T_cam1_world : Mat := fun i j => if i = j then 1 else 0

/-- Source lines 28-31: the fixed extrinsic of camera 2 (y-translation −0.4). -/
def T_cam2_world : Mat :=
  ![![1, 0, 0, 0],
    ![0, 1, 0, -0.4],
    ![0, 0, 1, 0],
    ![0, 0, 0, 1]]

/-- Source lines 32-35: the fixed extrinsic of camera 3 (y-translation −0.78). -/
def T_cam3_world : Mat :=
  ![![1, 0, 0, 0],
    ![0, 1, 0, -0.78],
    ![0, 0, 1, 0],
    ![0, 0, 0, 1]]

/-- Source lines 36-39: the fixed extrinsic of camera 4 (y-translation −1.13). -/
def T_cam4_world : Mat :=
  ![![1, 0, 0, 0],
    ![0, 1, 0, -1.13],
    ![0, 0, 1, 0],
    ![0, 0, 0, 1]]

/-- Source line 66: `base_transforms = [T_cam1_world, T_cam2_world, T_cam3_world, T_cam4_world]`. -/
def baseTransforms : Fin 4 → Mat :=
  ![T_cam1_world, T_cam2_world, T_cam3_world, T_cam4_world]

/-- Numpy in-place entry assignment `m[r, c] = v`, embedded functionally:
the resulting array agrees with `m` everywhere except entry `(r, c)`. -/
def setEntry (m : Mat) (r c : Fin 4) (v : ℚ) : Mat :=
  fun i j => if i = r ∧ j = c then v else m i j

/-- Insert a rational into a `≤`-sorted list, keeping it sorted. -/
def insertLe (a : ℚ) : List ℚ → List ℚ
  | [] => [a]
  | b :: bs => if a ≤ b then a :: b :: bs else b :: insertLe a bs

/-- Sort a list of rationals ascending (the sort `np.percentile` performs). -/
def sortLe : List ℚ → List ℚ
  | [] => []
  | a :: as => insertLe a (sortLe as)

/-- Numpy's `np.percentile(xs, q)` with the default linear interpolation, on
a nonempty array: sort ascending, take the virtual index `h = (n−1)·q/100`,
and linearly interpolate between the two neighbouring order statistics.
On an empty array `np.percentile` raises; that abort is modelled by
`npPercentileE` below, and this total version (whose `0` branch for `[]` is
dead on the program's error-free paths) is its value on success. -/
def npPercentile (xs : List ℚ) (q : ℚ) : ℚ :=
  let s := sortLe xs
  let n := s.length
  if n = 0 then 0
  else
    let h : ℚ := ((n : ℚ) - 1) * q / 100
    let lo : ℕ := (⌊h⌋).toNat
    let a := s.getD lo 0
    let b := s.getD (lo + 1) a
    a + (h - (lo : ℚ)) * (b - a)

/-- Numpy's `np.percentile(xs, q)` with its error behaviour: on an empty
array it raises a `ValueError` (modelled as `none`); otherwise it returns
the linearly interpolated percentile. -/
def npPercentileE (xs : List ℚ) (q : ℚ) : Option ℚ :=
  if xs = [] then none else some (npPercentile xs q)

/-- Source lines 53-58: per camera, the 5th percentile of the z-coordinates
of all projected points (`np.percentile(points_flat[:, 2], 5)`). -/
def minDepths (ptss : Fin 4 → List Point3) : Fin 4 → ℚ :=
  fun i => npPercentile ((ptss i).map Point3.z) 5

/-- Source lines 53-58 with the error path: the loop calls
`np.percentile(points_flat[:, 2], 5)` for each camera in turn, so if any
camera's projected point list is empty the whole run aborts with the raised
`ValueError` (`none`); otherwise every percentile succeeds and the
`min_depths` list is built. -/
def minDepthsE (ptss : Fin 4 → List Point3) : Option (Fin 4 → ℚ) :=
  if ∀ i, ptss i ≠ [] then some (minDepths ptss) else none

/-- Source lines 60-62: `depth_offsets = [d - base_depth for d in min_depths]`
with `base_depth = min_depths[0]`. -/
def depthOffsets (ptss : Fin 4 → List Point3) : Fin 4 → ℚ :=
  fun i => minDepths ptss i - minDepths ptss 0

/-- Source lines 65-70: each effective transform is a copy of the base
transform whose `(2, 3)` entry is assigned the camera's depth offset
(`transform[2, 3] = depth_offsets[i]`). -/
def effectiveTransforms (ptss : Fin 4 → List Point3) : Fin 4 → Mat :=
  fun i => setEntry (baseTransforms i) 2 3 (depthOffsets ptss i)

/-- The homogeneous coordinates `[p; 1]` of a point (source line 82). -/
def hom4 (p : Point3) : Fin 4 → ℚ := ![p.x, p.y, p.z, 1]

/-- Matrix-vector product `T @ v` of a 4×4 matrix with a 4-vector. -/
def matVec (T : Mat) (v : Fin 4 → ℚ) : Fin 4 → ℚ :=
  fun i => T i 0 * v 0 + T i 1 * v 1 + T i 2 * v 2 + T i 3 * v 3

/-- Matrix product `A @ B` of two 4×4 matrices. -/
def matMul (A B : Mat) : Mat :=
  fun i j => A i 0 * B 0 j + A i 1 * B 1 j + A i 2 * B 2 j + A i 3 * B 3 j

/-- The 4×4 identity matrix. -/
def idMat : Mat := fun i j => if i = j then 1 else 0

/-- Source line 83: transform a point to world coordinates,
`p_world = (T @ [p; 1])[:3]` — the first three components. -/
def applyHom (T : Mat) (p : Point3) : Point3 :=
  ⟨matVec T (hom4 p) 0, matVec T (hom4 p) 1, matVec T (hom4 p) 2⟩

/-- The standard inverse of a rigid homogeneous transform `[R t; 0 1]`:
rotation transposed, translation `−Rᵀ t`, bottom row `[0,0,0,1]`. -/
def rigidInv (T : Mat) : Mat := fun i j =>
  if i = 3 then (if j = 3 then 1 else 0)
  else if j = 3 then -(T 0 i * T 0 3 + T 1 i * T 1 3 + T 2 i * T 2 3)
  else T j i

/-- Source line 78: the per-pixel boolean mask `points_flat[:, 2] < depth_threshold`. -/
def maskOf (pts : List Point3) (t : ℚ) : List Bool :=
  pts.map (fun p => decide (p.z < t))

/-- Numpy boolean-mask indexing `a[mask]`: keep the entries whose mask bit is true. -/
def applyMask {α : Type} : List α → List Bool → List α
  | [], _ => []
  | _, [] => []
  | a :: as, b :: bs => if b then a :: applyMask as bs else applyMask as bs

/-- Source line 79: `points_filtered = points_flat[mask]`. -/
def pointsFiltered (pts : List Point3) (t : ℚ) : List Point3 :=
  applyMask pts (maskOf pts t)

/-- Source line 89: per-channel normalization `color / 255.0`. -/
def normColor (c : Color) : Color :=
  ⟨c.r / 255, c.g / 255, c.b / 255⟩

/-- One camera's point cloud as built on source lines 73-91: the surviving
points transformed to world coordinates, with the parallel list of
normalized colors filtered by the same mask. -/
structure PCD where
  points : List Point3
  colors : List Color
deriving DecidableEq, Repr

/-- Source lines 73-91 for one camera: filter by depth, transform the
survivors with the camera's effective transform, and filter-and-normalize
the parallel colors with the same mask. -/
def cameraPCD (T : Mat) (pts : List Point3) (colors : List Color) (t : ℚ) : PCD :=
  { points := (applyMask pts (maskOf pts t)).map (applyHom T)
    colors := (applyMask colors (maskOf pts t)).map normColor }

/-- Source lines 72-91: the list `pcds` of all four cameras' clouds,
built sequentially with each camera's effective transform. -/
def pcds (ptss : Fin 4 → List Point3) (colorss : Fin 4 → List Color) (t : ℚ) :
    List PCD :=
  (List.finRange 4).map fun i =>
    cameraPCD (effectiveTransforms ptss i) (ptss i) (colorss i) t

/-- The merged WorldPointCloud: all four cameras' world points handed to the
renderer (spec §3, §4.4 step 5 — plain concatenation, no deduplication). -/
def worldPoints (ptss : Fin 4 → List Point3) (colorss : Fin 4 → List Color)
    (t : ℚ) : List Point3 :=
  ((pcds ptss colorss t).map PCD.points).flatten

/-- Source lines 52-91 including the abort path: the run first computes
`min_depths` (raising — `none` — if any camera's point list is empty at
line 57, before any filtering), and only on success goes on to build the
four clouds. -/
def processRun (ptss : Fin 4 → List Point3) (colorss : Fin 4 → List Color)
    (t : ℚ) : Option (List PCD) :=
  match minDepthsE ptss with
  | none => none
  | some _ => some (pcds ptss colorss t)

/-! ### Helper lemmas -/

/-- Filtering through a point list's own depth mask is `List.filter`. -/
theorem applyMask_maskOf (pts : List Point3) (t : ℚ) :
    applyMask pts (maskOf pts t) = pts.filter (fun p => decide (p.z < t)) := by
  induction pts with
  | nil => rfl
  | cons p ps ih =>
    by_cases h : p.z < t <;>
      simp [applyMask, maskOf, List.filter_cons, h, ih, maskOf] <;>
      simpa [maskOf] using ih

/-! ### Claim theorems -/

/-- C4: for every camera `i`, the near-surface depth is the 5th percentile of
the z-coordinates of that camera's projected points, and
`offset[i] = nearSurface[i] - nearSurface[0]` with camera 0 the anchor. -/
theorem near_surface_percentile_and_anchored_offset
    (ptss : Fin 4 → List Point3) (i : Fin 4) :
    minDepths ptss i = npPercentile ((ptss i).map Point3.z) 5 ∧
    depthOffsets ptss i = minDepths ptss i - minDepths ptss 0 :=
  ⟨rfl, rfl⟩

/-- C5: on every run, `offset[0] = 0` and the reference camera's effective
transform is its base extrinsic transform unchanged. -/
theorem reference_offset_zero_transform_unchanged
    (ptss : Fin 4 → List Point3) :
    depthOffsets ptss 0 = 0 ∧
    effectiveTransforms ptss 0 = baseTransforms 0 := by
  refine ⟨sub_self _, ?_⟩
  funext i j
  simp only [effectiveTransforms, setEntry, depthOffsets, sub_self]
  split
  · next h =>
    obtain ⟨rfl, rfl⟩ := h
    simp [baseTransforms, T_cam1_world]
  · rfl

/-- C2: for every camera, the effective transform's `(2,3)` (z-translation)
entry equals the base transform's z-translation entry plus the camera's
depth offset (every base z-translation is `0`, and the code assigns the
offset into the copied matrix), and every entry of the upper-left 3×3
rotation block is unchanged. -/
theorem effective_translation_additive_rotation_fixed
    (ptss : Fin 4 → List Point3) (i : Fin 4) :
    effectiveTransforms ptss i 2 3 = baseTransforms i 2 3 + depthOffsets ptss i ∧
    ∀ r c : Fin 4, (r : ℕ) < 3 → (c : ℕ) < 3 →
      effectiveTransforms ptss i r c = baseTransforms i r c := by
  constructor
  · fin_cases i <;>
      simp [effectiveTransforms, setEntry, baseTransforms,
        T_cam1_world, T_cam2_world, T_cam3_world, T_cam4_world]
  · intro r c hr hc
    have hne : ¬(r = 2 ∧ c = 3) := by
      rintro ⟨rfl, rfl⟩
      exact absurd hc (by decide)
    simp [effectiveTransforms, setEntry, hne]

/-- Witness for C2 at a concrete input: a run whose four clouds are each the
single point `(0,0,1)`, checked at camera 1 and rotation entry `(0,0)`. -/
theorem effective_translation_additive_rotation_fixed_witness :
    effectiveTransforms (fun _ => [⟨0, 0, 1⟩]) 1 2 3
      = baseTransforms 1 2 3 + depthOffsets (fun _ => [⟨0, 0, 1⟩]) 1 ∧
    effectiveTransforms (fun _ => [⟨0, 0, 1⟩]) 1 0 0 = baseTransforms 1 0 0 :=
  ⟨(effective_translation_additive_rotation_fixed (fun _ => [⟨0, 0, 1⟩]) 1).1,
   (effective_translation_additive_rotation_fixed (fun _ => [⟨0, 0, 1⟩]) 1).2
      0 0 (by norm_num) (by norm_num)⟩

/-- Filtering by a pointwise-weaker predicate keeps at least as many elements. -/
theorem filter_length_mono {α : Type} (p q : α → Bool) (l : List α)
    (hpq : ∀ a, p a = true → q a = true) :
    (l.filter p).length ≤ (l.filter q).length := by
  induction l with
  | nil => simp
  | cons a as ih =>
    rw [List.filter_cons, List.filter_cons]
    by_cases hp : p a = true
    · rw [if_pos hp, if_pos (hpq a hp)]
      simpa using ih
    · rw [if_neg hp]
      by_cases hq : q a = true
      · rw [if_pos hq]
        exact le_trans ih (Nat.le_succ _)
      · rw [if_neg hq]
        exact ih

/-- C7: filtering is monotone in the threshold — raising the depth threshold
never decreases the number of retained points. -/
theorem filtering_monotone_in_threshold
    (pts : List Point3) (t1 t2 : ℚ) (h : t1 ≤ t2) :
    (pointsFiltered pts t1).length ≤ (pointsFiltered pts t2).length := by
  rw [pointsFiltered, pointsFiltered, applyMask_maskOf, applyMask_maskOf]
  exact filter_length_mono _ _ _
    (fun a ha => decide_eq_true (lt_of_lt_of_le (of_decide_eq_true ha) h))

/-- Witness for C7: two points at depths 1 and 3, thresholds 3/2 ≤ 7/2. -/
theorem filtering_monotone_in_threshold_witness :
    (pointsFiltered [⟨0, 0, 1⟩, ⟨0, 0, 3⟩] (3/2)).length ≤
      (pointsFiltered [⟨0, 0, 1⟩, ⟨0, 0, 3⟩] (7/2)).length :=
  filtering_monotone_in_threshold _ _ _ (by norm_num)

/-- Unfolding lemma: one step of the depth mask. -/
theorem maskOf_cons (p : Point3) (ps : List Point3) (t : ℚ) :
    maskOf (p :: ps) t = decide (p.z < t) :: maskOf ps t := rfl

/-- C6: a point of a camera's cloud is discarded exactly when its
camera-local depth `z` is ≥ the threshold, and the camera's output points
are exactly the survivors mapped through `p ↦ (T @ [p; 1])[:3]`. -/
theorem discard_iff_threshold_and_homogeneous_map
    (T : Mat) (pts : List Point3) (colors : List Color) (t : ℚ) :
    (∀ p ∈ pts, (p ∉ pointsFiltered pts t ↔ t ≤ p.z)) ∧
    (cameraPCD T pts colors t).points =
      (pointsFiltered pts t).map
        (fun p => ⟨matVec T (hom4 p) 0, matVec T (hom4 p) 1, matVec T (hom4 p) 2⟩) := by
  refine ⟨?_, rfl⟩
  intro p hp
  rw [pointsFiltered, applyMask_maskOf]
  simp [List.mem_filter, hp, not_lt]

/-- Witness for C6: depths 1 and 3 with threshold 2 — the point at depth 3
is discarded (3 ≥ 2), and the output equals the homogeneous map of the
survivors. -/
theorem discard_iff_threshold_and_homogeneous_map_witness :
    ((⟨0, 0, 3⟩ : Point3) ∉ pointsFiltered [⟨0, 0, 1⟩, ⟨0, 0, 3⟩] 2 ↔ (2 : ℚ) ≤ 3) ∧
    (cameraPCD idMat [⟨0, 0, 1⟩, ⟨0, 0, 3⟩] [] 2).points =
      (pointsFiltered [⟨0, 0, 1⟩, ⟨0, 0, 3⟩] 2).map
        (fun p => ⟨matVec idMat (hom4 p) 0, matVec idMat (hom4 p) 1,
                   matVec idMat (hom4 p) 2⟩) :=
  ⟨(discard_iff_threshold_and_homogeneous_map idMat [⟨0, 0, 1⟩, ⟨0, 0, 3⟩] [] 2).1
      ⟨0, 0, 3⟩ (by simp),
   (discard_iff_threshold_and_homogeneous_map idMat [⟨0, 0, 1⟩, ⟨0, 0, 3⟩] [] 2).2⟩

/-- Zipping a camera's output points with its output colors recovers the
source pixels: both arrays are filtered by the same mask, so the pairing is
the filter of the zipped (point, color) pixel list. -/
theorem zip_mask_pairing (T : Mat) (t : ℚ) (pts : List Point3) :
    ∀ colors : List Color, colors.length = pts.length →
      ((applyMask pts (maskOf pts t)).map (applyHom T)).zip
          ((applyMask colors (maskOf pts t)).map normColor) =
        ((pts.zip colors).filter (fun pc => decide (pc.1.z < t))).map
          (fun pc => (applyHom T pc.1, normColor pc.2)) := by
  induction pts with
  | nil =>
    intro colors h
    have : colors = [] := List.eq_nil_of_length_eq_zero h
    subst this
    rfl
  | cons p ps ih =>
    intro colors h
    cases colors with
    | nil => simp at h
    | cons c cs =>
      have h' : cs.length = ps.length := by simpa using h
      have ih' := ih cs h'
      simp only [maskOf] at ih' ⊢
      by_cases hz : p.z < t <;>
        simp [applyMask, hz, List.filter_cons, ih']

/-- The merged cloud's length is the sum of the per-camera surviving counts. -/
theorem worldPoints_length (ptss : Fin 4 → List Point3)
    (colorss : Fin 4 → List Color) (t : ℚ) :
    (worldPoints ptss colorss t).length =
      ∑ i : Fin 4, (pointsFiltered (ptss i) t).length := by
  have h4 : List.finRange 4 = [0, 1, 2, 3] := by decide
  simp [worldPoints, pcds, h4, cameraPCD, pointsFiltered, Fin.sum_univ_four]
  omega

/-- C8: the merged world cloud's size is the sum of the per-camera surviving
counts, and for each camera whose flattened image has one color per
projected point (always the case: the depth map has the image's resolution),
the i-th output point is paired with exactly its source pixel's color
normalized by 255. -/
theorem merged_size_and_color_pairing (ptss : Fin 4 → List Point3)
    (colorss : Fin 4 → List Color) (t : ℚ) :
    (worldPoints ptss colorss t).length =
      ∑ i : Fin 4, (pointsFiltered (ptss i) t).length ∧
    ∀ i : Fin 4, (colorss i).length = (ptss i).length →
      ((cameraPCD (effectiveTransforms ptss i) (ptss i) (colorss i) t).points).zip
          ((cameraPCD (effectiveTransforms ptss i) (ptss i) (colorss i) t).colors) =
        (((ptss i).zip (colorss i)).filter (fun pc => decide (pc.1.z < t))).map
          (fun pc => (applyHom (effectiveTransforms ptss i) pc.1, normColor pc.2)) := by
  refine ⟨worldPoints_length ptss colorss t, ?_⟩
  intro i h
  exact zip_mask_pairing (effectiveTransforms ptss i) t (ptss i) (colorss i) h

/-- Witness for C8: one point per camera at depth 1 with a single color. -/
theorem merged_size_and_color_pairing_witness :
    (worldPoints (fun _ => [⟨0, 0, 1⟩]) (fun _ => [⟨255, 0, 0⟩]) 2).length =
      ∑ i : Fin 4, (pointsFiltered ((fun _ => [(⟨0, 0, 1⟩ : Point3)]) i) 2).length ∧
    ((cameraPCD (effectiveTransforms (fun _ => [⟨0, 0, 1⟩]) 1) [⟨0, 0, 1⟩]
        [⟨255, 0, 0⟩] 2).points).zip
        ((cameraPCD (effectiveTransforms (fun _ => [⟨0, 0, 1⟩]) 1) [⟨0, 0, 1⟩]
          [⟨255, 0, 0⟩] 2).colors) =
      (([(⟨0, 0, 1⟩ : Point3)].zip [(⟨255, 0, 0⟩ : Color)]).filter
          (fun pc => decide (pc.1.z < 2))).map
        (fun pc => (applyHom (effectiveTransforms (fun _ => [⟨0, 0, 1⟩]) 1) pc.1,
                    normColor pc.2)) :=
  ⟨(merged_size_and_color_pairing (fun _ => [⟨0, 0, 1⟩]) (fun _ => [⟨255, 0, 0⟩]) 2).1,
   (merged_size_and_color_pairing (fun _ => [⟨0, 0, 1⟩]) (fun _ => [⟨255, 0, 0⟩]) 2).2
      1 rfl⟩

/-- A mask of all-false bits selects nothing. -/
theorem applyMask_all_false {α : Type} (xs : List α) :
    ∀ bs : List Bool, (∀ b ∈ bs, b = false) → applyMask xs bs = [] := by
  induction xs with
  | nil => intro bs _; cases bs <;> rfl
  | cons a as ih =>
    intro bs h
    cases bs with
    | nil => rfl
    | cons b bs' =>
      have hb : b = false := h b (by simp)
      subst hb
      simpa [applyMask] using ih bs' (fun x hx => h x (by simp [hx]))

/-- A run in which camera 1's projected point list is empty; the other
cameras see one point at depth 1. -/
def emptyCamPtss : Fin 4 → List Point3 :=
  fun j => if j = 1 then [] else [⟨0, 0, 1⟩]

/-- Flattened single-pixel images for the degenerate runs. -/
def degColss : Fin 4 → List Color := fun _ => [⟨255, 0, 0⟩]

/-- Counterexample to C3 as stated: when a camera's point set is empty the
pipeline does NOT continue — `np.percentile` on camera 1's empty z-array
raises at line 57, before any filtering, and the run aborts (`none`). -/
theorem empty_camera_aborts_run :
    emptyCamPtss 1 = [] ∧ processRun emptyCamPtss degColss 2 = none := by
  refine ⟨rfl, ?_⟩
  have h : ¬ ∀ i, emptyCamPtss i ≠ [] := fun hall => hall 1 rfl
  simp [processRun, minDepthsE, h]

/-- C3 (amended): a camera whose point set is nonempty but entirely at or
beyond the threshold contributes an empty point/color cloud while the run
continues (every percentile succeeds, so the run returns the four clouds),
and the merged world cloud is just the sum of the other cameras'
contributions. An empty point set instead aborts the whole run — see
`empty_camera_aborts_run`. -/
theorem beyond_threshold_camera_contributes_zero (ptss : Fin 4 → List Point3)
    (colorss : Fin 4 → List Color) (t : ℚ) (i : Fin 4)
    (hne : ∀ j, ptss j ≠ []) (h : ∀ p ∈ ptss i, t ≤ p.z) :
    processRun ptss colorss t = some (pcds ptss colorss t) ∧
    cameraPCD (effectiveTransforms ptss i) (ptss i) (colorss i) t = ⟨[], []⟩ ∧
    (worldPoints ptss colorss t).length =
      ∑ j ∈ Finset.univ.erase i, (pointsFiltered (ptss j) t).length := by
  have hmask : ∀ b ∈ maskOf (ptss i) t, b = false := by
    intro b hb
    rw [maskOf, List.mem_map] at hb
    obtain ⟨p, hp, rfl⟩ := hb
    simpa [not_lt] using h p hp
  have hpts : applyMask (ptss i) (maskOf (ptss i) t) = [] :=
    applyMask_all_false _ _ hmask
  have hcols : applyMask (colorss i) (maskOf (ptss i) t) = [] :=
    applyMask_all_false _ _ hmask
  refine ⟨by simp [processRun, minDepthsE, hne], by simp [cameraPCD, hpts, hcols], ?_⟩
  rw [worldPoints_length ptss colorss t]
  have hzero : (pointsFiltered (ptss i) t).length = 0 := by
    simp [pointsFiltered, hpts]
  exact (Finset.sum_erase (f := fun j => (pointsFiltered (ptss j) t).length)
    (a := i) Finset.univ hzero).symm

/-- A concrete degenerate-but-nonempty run: camera 1's only projected point
sits at depth 5, at or beyond threshold 2; the other cameras see one point
at depth 1. -/
def degPtss : Fin 4 → List Point3 :=
  fun j => if j = 1 then [⟨0, 0, 5⟩] else [⟨0, 0, 1⟩]

/-- Witness for the amended C3: every camera has a point, and camera 1's
only point is at depth 5, beyond threshold 2. -/
theorem beyond_threshold_camera_contributes_zero_witness :
    processRun degPtss degColss 2 = some (pcds degPtss degColss 2) ∧
    cameraPCD (effectiveTransforms degPtss 1) (degPtss 1) (degColss 1) 2
        = ⟨[], []⟩ ∧
    (worldPoints degPtss degColss 2).length =
      ∑ j ∈ Finset.univ.erase (1 : Fin 4), (pointsFiltered (degPtss j) 2).length :=
  beyond_threshold_camera_contributes_zero degPtss degColss 2 1
    (by intro j; fin_cases j <;> simp [degPtss])
    (by intro p hp; simp [degPtss] at hp; subst hp; norm_num)

/-- The common shape of all four effective transforms: identity rotation,
y-translation `b`, z-translation `o`. -/
def transMat (b o : ℚ) : Mat :=
  ![![1, 0, 0, 0], ![0, 1, 0, b], ![0, 0, 1, o], ![0, 0, 0, 1]]

/-- Assigning `o` into entry `(2,3)` of any of the four base transforms
yields the translation matrix with that camera's y-offset and z-entry `o`. -/
theorem eff_eq_transMat (i : Fin 4) (o : ℚ) :
    setEntry (baseTransforms i) 2 3 o = transMat (baseTransforms i 1 3) o := by
  funext a b
  fin_cases i <;> fin_cases a <;> fin_cases b <;> rfl

/-- A translation matrix times its rigid inverse is the identity. -/
theorem transMat_mul_inv (b o : ℚ) :
    matMul (transMat b o) (rigidInv (transMat b o)) = idMat := by
  funext a c
  fin_cases a <;> fin_cases c <;>
    simp [transMat, matMul, rigidInv, idMat, Matrix.vecHead, Matrix.vecTail]

/-- The rigid inverse of a translation matrix times the matrix is the identity. -/
theorem inv_mul_transMat (b o : ℚ) :
    matMul (rigidInv (transMat b o)) (transMat b o) = idMat := by
  funext a c
  fin_cases a <;> fin_cases c <;>
    simp [transMat, matMul, rigidInv, idMat, Matrix.vecHead, Matrix.vecTail]

/-- Applying a translation matrix then its rigid inverse is the identity on points. -/
theorem transMat_roundtrip (b o : ℚ) (p : Point3) :
    applyHom (rigidInv (transMat b o)) (applyHom (transMat b o) p) = p := by
  obtain ⟨px, py, pz⟩ := p
  simp [transMat, applyHom, matVec, hom4, rigidInv, Matrix.vecHead, Matrix.vecTail]

/-- C9: each camera's effective transform is rigid and invertible — its rigid
inverse is a genuine two-sided matrix inverse, and applying the transform then
the inverse reproduces every camera-local point exactly (exact arithmetic; the
spec's 1e-5 tolerance is only a float slack). -/
theorem effective_transform_roundtrip (ptss : Fin 4 → List Point3)
    (i : Fin 4) (p : Point3) :
    matMul (effectiveTransforms ptss i) (rigidInv (effectiveTransforms ptss i))
      = idMat ∧
    matMul (rigidInv (effectiveTransforms ptss i)) (effectiveTransforms ptss i)
      = idMat ∧
    applyHom (rigidInv (effectiveTransforms ptss i))
      (applyHom (effectiveTransforms ptss i) p) = p := by
  have h : effectiveTransforms ptss i
      = transMat (baseTransforms i 1 3) (depthOffsets ptss i) :=
    eff_eq_transMat i (depthOffsets ptss i)
  rw [h]
  exact ⟨transMat_mul_inv _ _, inv_mul_transMat _ _, transMat_roundtrip _ _ p⟩

/-- A numpy heap: the 4×4 arrays currently allocated, addressed by position.
Models aliasing and in-place mutation of the transform matrices. -/
abbrev Heap := List Mat

/-- The heap as it stands after source lines 27-39: the four base transform
arrays, at addresses 0-3. -/
def initHeap : Heap := [T_cam1_world, T_cam2_world, T_cam3_world, T_cam4_world]

/-- Source lines 65-70 with mutation made explicit: for each camera `i`,
`transform = base_transforms[i].copy()` allocates a fresh array at the end of
the heap, and `transform[2, 3] = depth_offsets[i]` stores into that fresh
address in place. Returns the final heap and the addresses of the four
`transforms` entries. -/
def buildTransformsHeap (offs : Fin 4 → ℚ) : Heap × List ℕ :=
  (List.finRange 4).foldl
    (fun st i =>
      let m := st.1.getD (i : ℕ) (fun _ _ => 0)
      let r := st.1.length
      let h1 := st.1 ++ [m]
      let h2 := h1.set r (setEntry (h1.getD r (fun _ _ => 0)) 2 3 (offs i))
      (h2, st.2 ++ [r]))
    (initHeap, [])

/-- C10: building the effective transforms never mutates the four base
transform arrays — after the loop the heap still holds the original base
matrices at addresses 0-3; the `transforms` list references the four fresh
copies (addresses 4-7), each the base matrix with only entry `(2,3)` set. -/
theorem base_transforms_not_mutated (offs : Fin 4 → ℚ) (i : Fin 4) :
    (buildTransformsHeap offs).1.getD (i : ℕ) (fun _ _ => 0) = baseTransforms i ∧
    (buildTransformsHeap offs).2 = [4, 5, 6, 7] ∧
    (buildTransformsHeap offs).1.getD (4 + (i : ℕ)) (fun _ _ => 0)
      = setEntry (baseTransforms i) 2 3 (offs i) := by
  have h4 : List.finRange 4 = [0, 1, 2, 3] := by decide
  refine ⟨?_, ?_, ?_⟩ <;>
    fin_cases i <;>
      (simp [buildTransformsHeap, initHeap, h4, baseTransforms, Fin.last]
       try rfl)

/-- The end-to-end synthetic scenario of the spec: four flat planes at
camera-local depths 1.0, 1.4, 1.78, 2.13 (one pixel per plane suffices —
every pixel of a flat plane has the same `z`). -/
def planePtss : Fin 4 → List Point3 :=
  ![[⟨0, 0, 1⟩], [⟨0, 0, 1.4⟩], [⟨0, 0, 1.78⟩], [⟨0, 0, 2.13⟩]]

/-- Single-pixel images for the synthetic scenario. -/
def planeColss : Fin 4 → List Color := fun _ => [⟨0, 0, 0⟩]

/-- C1 (refuted — the code has the alignment sign backwards): on the four
synthetic flat planes at depths 1.0, 1.4, 1.78, 2.13 with threshold 2.0 the
computed offsets are indeed [0, 0.4, 0.78, 1.13], but the code writes
`+offset` into the z-translation, so camera i's surviving points land at
world z = depth + offset (1.0, 1.8, 2.56; camera 3's plane is filtered out
entirely since 2.13 ≥ 2.0) instead of all landing at z = 1.0: the correction
doubles the synthetic depth drift rather than cancelling it. -/
theorem synthetic_planes_drift_doubled :
    (depthOffsets planePtss 0 = 0 ∧ depthOffsets planePtss 1 = 0.4 ∧
     depthOffsets planePtss 2 = 0.78 ∧ depthOffsets planePtss 3 = 1.13) ∧
    worldPoints planePtss planeColss 2 =
      [⟨0, 0, 1⟩, ⟨0, -0.4, 1.8⟩, ⟨0, -0.78, 2.56⟩] ∧
    ∃ p ∈ worldPoints planePtss planeColss 2, p.z ≠ 1 := by
  have o0 : depthOffsets planePtss ⟨0, by omega⟩ = 0 := by
    norm_num [depthOffsets, minDepths, npPercentile, sortLe, insertLe, planePtss]
  have o1 : depthOffsets planePtss ⟨1, by omega⟩ = 0.4 := by
    norm_num [depthOffsets, minDepths, npPercentile, sortLe, insertLe, planePtss]
  have o2 : depthOffsets planePtss ⟨2, by omega⟩ = 0.78 := by
    norm_num [depthOffsets, minDepths, npPercentile, sortLe, insertLe, planePtss]
  have o3 : depthOffsets planePtss ⟨3, by omega⟩ = 1.13 := by
    norm_num [depthOffsets, minDepths, npPercentile, sortLe, insertLe, planePtss]
  have h4 : List.finRange 4 = [0, 1, 2, 3] := by decide
  have hw : worldPoints planePtss planeColss 2 =
      [⟨0, 0, 1⟩, ⟨0, -0.4, 1.8⟩, ⟨0, -0.78, 2.56⟩] := by
    simp only [worldPoints, pcds, h4, List.map, effectiveTransforms, o0, o1, o2, o3]
    norm_num [planePtss, planeColss, cameraPCD, maskOf, applyMask, setEntry,
      baseTransforms, applyHom, matVec, hom4, Fin.ext_iff,
      show ((3 : Fin 4) : ℕ) = 3 from rfl,
      T_cam1_world, T_cam2_world, T_cam3_world, T_cam4_world,
      Matrix.vecHead, Matrix.vecTail]
  refine ⟨⟨o0, o1, o2, o3⟩, hw, ⟨0, -0.4, 1.8⟩, ?_, by norm_num⟩
  rw [hw]
  simp
